import Mathlib

/-!
Shallow embedding of the voice-transformer real-time audio pipeline from
`src/main.rs`: the cubic interpolator, the FFT front end, the phase
oscillator, the envelope-follower noise gate, the shared ring buffer with
its capture and playback callbacks, and the control-surface volume command.
Audio samples (`f32` in the source) are modelled as real numbers.
-/

namespace VoiceTransformer

/-- Fixed processing sample rate (`let sample_rate = 44100.0` in `main`). -/
noncomputable def sampleRate : ℝ := 44100

/-- Live-tunable effect parameters read by the capture callback
(volume, noise threshold, attack, release, smoothing, frequency shift,
buffer size limit). -/
structure Params where
  volume : ℝ
  noiseThreshold : ℝ
  attack : ℝ
  release : ℝ
  smoothing : ℝ
  freqShift : ℝ
  bufferSizeLimit : ℕ

/-- Embedding of `cubic_interpolate` from `src/main.rs`. -/
noncomputable def cubic_interpolate (p0 p1 p2 p3 t : ℝ) : ℝ :=
  let a0 := p3 - p2 - p0 + p1
  let a1 := p0 - p1 - a0
  let a2 := p2 - p0
  let a3 := p1
  a0 * t * t * t + a1 * t * t + a2 * t + a3

/-- One step of the phase accumulator in the input callback:
`*phase += 2.0 * PI * *freq_shift / sample_rate;` followed by a single
conditional subtraction of `2π`. -/
noncomputable def advancePhase (phase freq : ℝ) : ℝ :=
  if phase + 2 * Real.pi * freq / sampleRate ≥ 2 * Real.pi then
    phase + 2 * Real.pi * freq / sampleRate - 2 * Real.pi
  else
    phase + 2 * Real.pi * freq / sampleRate

/-- The phase accumulator after a sequence of advance calls, one call per
entry of `fs` (the frequency in force at that call), starting from phase 0. -/
noncomputable def phaseRun (fs : List ℝ) : ℝ := fs.foldl advancePhase 0

/-- Amplitude modulation of one input sample at the current phase:
`*sample * (1.0 + mod_amount * (0.7 * phase.sin() + 0.3 * phase.cos()))`
with `mod_amount = 0.015`. -/
noncomputable def shiftedOf (phase x : ℝ) : ℝ :=
  x * (1 + 0.015 * (0.7 * Real.sin phase + 0.3 * Real.cos phase))

/-- The envelope smoothing coefficient as the input callback computes it:
`let alpha = (-1.0 / (sample_rate * time_constant)).exp();` (computed
unconditionally, whatever the sign of the time constant). -/
noncomputable def envAlpha (tc : ℝ) : ℝ := Real.exp (-1 / (sampleRate * tc))

/-- The first envelope blend of the input callback:
`*envelope = *envelope * alpha + target_envelope * (1.0 - alpha);`. -/
noncomputable def envAlphaBlend (tc envelope target : ℝ) : ℝ :=
  envelope * envAlpha tc + target * (1 - envAlpha tc)

/-- Full per-sample envelope update of the input callback: target selection
against the noise threshold, attack/release time-constant choice, the alpha
blend, and the second smoothing blend. -/
noncomputable def envelopeUpdate (p : Params) (envelope shifted : ℝ) : ℝ :=
  let sampleLevel := |shifted|
  let target := if sampleLevel > p.noiseThreshold then sampleLevel else 0
  let tc := if target > envelope then p.attack else p.release
  let env1 := envAlphaBlend tc envelope target
  env1 * p.smoothing + target * (1 - p.smoothing)

/-- The noise-gate multiplier of the input callback: 1 above the threshold,
otherwise `ratio.powf(1.5) * (0.15 + 0.85 * ratio)`. -/
noncomputable def gateMultiplier (envelope threshold : ℝ) : ℝ :=
  if envelope > threshold then 1
  else
    let ratio := envelope / threshold
    let curve := ratio ^ (1.5 : ℝ)
    curve * (0.15 + 0.85 * ratio)

/-- Appending one processed sample to the shared ring buffer, together with
the interpolation step that follows it in the input callback.  The two reads
`buffer[buffer.len() - 2]` and `buffer[buffer.len() - 1]` are panicking
index operations in the source, so they are modelled through `List.get?`
with `none` standing for an out-of-bounds panic.  The returned Bool records
whether an interpolated sample was appended. -/
noncomputable def ringPush (ring : List ℝ) (processed : ℝ) : Option (List ℝ × Bool) :=
  if (ring ++ [processed]).length % 441 = 0 ∧ (ring ++ [processed]).length > 2 then
    match (ring ++ [processed]).get? ((ring ++ [processed]).length - 2),
          (ring ++ [processed]).get? ((ring ++ [processed]).length - 1) with
    | some p0, some p1 =>
        some ((ring ++ [processed]) ++ [cubic_interpolate p0 p1 processed processed 0.5], true)
    | _, _ => none
  else
    some (ring ++ [processed], false)

/-- State carried across capture-callback samples: the oscillator phase, the
gate envelope and the ring buffer, plus two ghost fields that only observe
the run (the count of processed samples ever appended, and that count's
value at each interpolation event). -/
structure CaptureState where
  phase : ℝ
  envelope : ℝ
  ring : List ℝ
  totalAppended : ℕ
  interpTotals : List ℕ

/-- The processed sample the capture callback produces from one input
sample: modulation at the advanced phase, then volume and gate applied
(`let processed_sample = shifted_sample * *volume * gate_multiplier;`). -/
noncomputable def captureProcessed (p : Params) (s : CaptureState) (x : ℝ) : ℝ :=
  shiftedOf (advancePhase s.phase p.freqShift) x * p.volume *
    gateMultiplier
      (envelopeUpdate p s.envelope (shiftedOf (advancePhase s.phase p.freqShift) x))
      p.noiseThreshold

/-- Processing of a single input sample by the capture callback: advance the
phase, modulate, update the envelope, apply volume and gate, push to the
ring (with the cadenced interpolation step). -/
noncomputable def captureStep (p : Params) (s : CaptureState) (x : ℝ) : Option CaptureState :=
  (ringPush s.ring (captureProcessed p s x)).map fun r =>
    { phase := advancePhase s.phase p.freqShift
      envelope := envelopeUpdate p s.envelope (shiftedOf (advancePhase s.phase p.freqShift) x)
      ring := r.1
      totalAppended := s.totalAppended + 1
      interpTotals := if r.2 then s.interpTotals ++ [s.totalAppended + 1] else s.interpTotals }

/-- The per-block loop of the capture callback over the delivered samples. -/
noncomputable def captureLoop (p : Params) : CaptureState → List ℝ → Option CaptureState
  | s, [] => some s
  | s, x :: xs =>
    match captureStep p s x with
    | some s1 => captureLoop p s1 xs
    | none => none

/-- End-of-block ring trim of the capture callback:
`if buffer.len() > *buffer_size_limit { buffer.drain(0..excess); }`. -/
def trimRing {α : Type} (cap : ℕ) (l : List α) : List α :=
  if l.length > cap then l.drop (l.length - cap) else l

/-- One whole invocation of the capture callback: the per-sample loop
followed by the end-of-block trim. -/
noncomputable def captureBlock (p : Params) (s : CaptureState) (inputs : List ℝ) :
    Option CaptureState :=
  (captureLoop p s inputs).map fun s1 => { s1 with ring := trimRing p.bufferSizeLimit s1.ring }

/-- One invocation of the playback callback requesting `frameCount` samples:
copy-and-scale from the front of the ring when enough samples are held,
otherwise emit silence and leave the ring untouched.  Returns the output
block and the new ring. -/
noncomputable def playbackStep (ring : List ℝ) (frameCount : ℕ) : List ℝ × List ℝ :=
  if ring.length ≥ frameCount then
    ((ring.take frameCount).map (fun x => x * 0.9), ring.drop frameCount)
  else
    (List.replicate frameCount 0, ring)

/-- The Hanning window coefficient used in `perform_fft_visualization`:
`0.5 * (1.0 - (2.0 * PI * i as f32 / (fft_size - 1) as f32).cos())`. -/
noncomputable def hannCoeff (fftSize i : ℕ) : ℝ :=
  0.5 * (1 - Real.cos (2 * Real.pi * (i : ℝ) / ((fftSize - 1 : ℕ) : ℝ)))

/-- The forward FFT of the external rustfft dependency, modelled as the
mathematical discrete Fourier transform it computes. -/
noncomputable def dft (v : List ℂ) : List ℂ :=
  (List.range v.length).map fun k =>
    ∑ n ∈ Finset.range v.length,
      v.getD n 0 * Complex.exp (-(2 * (Real.pi : ℂ) * Complex.I * (k : ℂ) * (n : ℂ)) / (v.length : ℂ))

/-- Embedding of `perform_fft_visualization` from `src/main.rs`: a window
shorter than the FFT size yields an all-zero half spectrum; otherwise the
first `fft_size` samples are Hann-windowed, transformed, and the magnitudes
of the first half are returned.  The `sample_rate` argument is taken and
ignored, as in the source. -/
noncomputable def perform_fft_visualization (input : List ℝ) (sample_rate : ℝ)
    (fft_size : ℕ) : List ℝ :=
  if input.length < fft_size then
    List.replicate (fft_size / 2) 0
  else
    let windowed : List ℂ :=
      (input.take fft_size).enum.map fun q => Complex.ofReal (q.2 * hannCoeff fft_size q.1)
    let spectrum := dft windowed
    (spectrum.take (fft_size / 2)).map fun z => Complex.abs z

/-- The control loop's volume command, with the operator's entry already
parsed to an optional number: `vol_input.trim().parse().unwrap_or(0.9)`. -/
noncomputable def setVolume (parsed : Option ℝ) : ℝ := parsed.getD 0.9

/-- The volume command as claim C9 words it: an out-of-range numeric entry
is also replaced with the documented default 0.9. -/
noncomputable def setVolumeClaimed (parsed : Option ℝ) : ℝ :=
  match parsed with
  | none => 0.9
  | some v => if 0 ≤ v ∧ v ≤ 1 then v else 0.9

/-- Initial state of the capture callback: phase 0, envelope 0, empty ring. -/
noncomputable def initState : CaptureState :=
  { phase := 0, envelope := 0, ring := [], totalAppended := 0, interpTotals := [] }

/-- Parameter values for the two-block demonstration run: the defaults with
the buffer size limit set to 10 through the control surface. -/
noncomputable def demoParams : Params :=
  { volume := 0.9, noiseThreshold := 0.01, attack := 0.01, release := 0.1,
    smoothing := 0.7, freqShift := 5, bufferSizeLimit := 10 }

/-- A concrete two-block capture run: 200 silent samples, the end-of-block
trim to capacity 10, then 241 further silent samples. -/
noncomputable def demoRun : Option CaptureState :=
  (captureBlock demoParams initState (List.replicate 200 0)).bind fun s =>
    captureBlock demoParams s (List.replicate 241 0)

/-- Parameter values with the release time set to -0.1 through the control
surface (the entry "-0.1" parses successfully and is stored unchecked). -/
noncomputable def cexParams : Params :=
  { volume := 0.9, noiseThreshold := 0.01, attack := 0.01, release := -0.1,
    smoothing := 0.7, freqShift := 5, bufferSizeLimit := 2400 }

/-! ## Helper lemmas -/

/-- When the post-push length misses the 441 cadence, the push appends the
processed sample and nothing else. -/
lemma ringPush_no_interp (ring : List ℝ) (x : ℝ)
    (h : (ring.length + 1) % 441 ≠ 0) :
    ringPush ring x = some (ring ++ [x], false) := by
  unfold ringPush
  rw [if_neg]
  rintro ⟨hm, -⟩
  simp only [List.length_append, List.length_singleton] at hm
  exact h hm

/-- The trimmed ring has length `min` of the untrimmed length and the cap. -/
lemma trimRing_length {α : Type} (cap : ℕ) (l : List α) :
    (trimRing cap l).length = min l.length cap := by
  unfold trimRing
  split
  · simp only [List.length_drop]
    omega
  · omega

/-- A capture step off the 441 cadence appends exactly the processed sample
and records no interpolation event. -/
lemma captureStep_no_interp (p : Params) (s : CaptureState) (x : ℝ)
    (h : (s.ring.length + 1) % 441 ≠ 0) :
    ∃ s1, captureStep p s x = some s1 ∧
      s1.ring = s.ring ++ [captureProcessed p s x] ∧
      s1.totalAppended = s.totalAppended + 1 ∧
      s1.interpTotals = s.interpTotals := by
  refine ⟨{ phase := advancePhase s.phase p.freqShift
            envelope := envelopeUpdate p s.envelope (shiftedOf (advancePhase s.phase p.freqShift) x)
            ring := s.ring ++ [captureProcessed p s x]
            totalAppended := s.totalAppended + 1
            interpTotals := s.interpTotals }, ?_, rfl, rfl, rfl⟩
  unfold captureStep
  rw [ringPush_no_interp _ _ h]
  rfl

/-- A block whose per-sample post-push lengths all miss the 441 cadence
appends exactly its input samples and records no interpolation event. -/
lemma captureLoop_no_interp (p : Params) :
    ∀ (inputs : List ℝ) (s : CaptureState),
      (∀ j, s.ring.length < j → j ≤ s.ring.length + inputs.length → j % 441 ≠ 0) →
      ∃ s1, captureLoop p s inputs = some s1 ∧
        s1.ring.length = s.ring.length + inputs.length ∧
        s1.totalAppended = s.totalAppended + inputs.length ∧
        s1.interpTotals = s.interpTotals := by
  intro inputs
  induction inputs with
  | nil =>
    intro s _
    exact ⟨s, rfl, by simp, by simp, rfl⟩
  | cons x xs ih =>
    intro s h
    have hx : (s.ring.length + 1) % 441 ≠ 0 := by
      apply h
      · omega
      · simp only [List.length_cons]
        omega
    obtain ⟨s1, hstep, hring, htot1, hint1⟩ := captureStep_no_interp p s x hx
    have hlen1 : s1.ring.length = s.ring.length + 1 := by
      rw [hring]
      simp
    obtain ⟨s2, hloop, hlen, htot, hint⟩ := ih s1 (by
      intro j hj1 hj2
      rw [hlen1] at hj1 hj2
      apply h
      · omega
      · simp only [List.length_cons]
        omega)
    refine ⟨s2, ?_, ?_, ?_, ?_⟩
    · simp only [captureLoop, hstep]
      exact hloop
    · rw [hlen, hlen1]
      simp only [List.length_cons]
      omega
    · rw [htot, htot1]
      simp only [List.length_cons]
      omega
    · rw [hint, hint1]

/-- A whole capture-callback invocation under the same no-cadence condition:
the ring ends trimmed, the ghost observers unchanged. -/
lemma captureBlock_no_interp (p : Params) (inputs : List ℝ) (s : CaptureState)
    (h : ∀ j, s.ring.length < j → j ≤ s.ring.length + inputs.length → j % 441 ≠ 0) :
    ∃ s1, captureBlock p s inputs = some s1 ∧
      s1.ring.length = min (s.ring.length + inputs.length) p.bufferSizeLimit ∧
      s1.totalAppended = s.totalAppended + inputs.length ∧
      s1.interpTotals = s.interpTotals := by
  obtain ⟨s1, hloop, hlen, htot, hint⟩ := captureLoop_no_interp p inputs s h
  refine ⟨{ s1 with ring := trimRing p.bufferSizeLimit s1.ring }, ?_, ?_, htot, hint⟩
  · unfold captureBlock
    rw [hloop]
    rfl
  · simp only [trimRing_length, hlen]

/-- The ring push never fails: under the cadence condition both index reads
are in bounds. -/
lemma ringPush_isSome (ring : List ℝ) (x : ℝ) : (ringPush ring x).isSome := by
  unfold ringPush
  by_cases h : ((ring ++ [x]).length % 441 = 0 ∧ (ring ++ [x]).length > 2)
  · rw [if_pos h]
    obtain ⟨-, h2⟩ := h
    have hi2 : (ring ++ [x]).length - 2 < (ring ++ [x]).length := by omega
    have hi1 : (ring ++ [x]).length - 1 < (ring ++ [x]).length := by omega
    rw [List.get?_eq_get hi2, List.get?_eq_get hi1]
    rfl
  · rw [if_neg h]
    rfl

/-- One capture step never fails. -/
lemma captureStep_isSome (p : Params) (s : CaptureState) (x : ℝ) :
    (captureStep p s x).isSome := by
  unfold captureStep
  rcases hr : ringPush s.ring (captureProcessed p s x) with - | r
  · have := ringPush_isSome s.ring (captureProcessed p s x)
    rw [hr] at this
    simp at this
  · rfl

/-- The per-block capture loop never fails. -/
lemma captureLoop_isSome (p : Params) :
    ∀ (inputs : List ℝ) (s : CaptureState), (captureLoop p s inputs).isSome := by
  intro inputs
  induction inputs with
  | nil => intro s; rfl
  | cons x xs ih =>
    intro s
    rcases hstep : captureStep p s x with - | s1
    · have := captureStep_isSome p s x
      rw [hstep] at this
      simp at this
    · simp only [captureLoop, hstep]
      exact ih s1

/-! ## Claim theorems -/

/-- C7 (confirmed): the cubic interpolation function is the pure polynomial
blend `a0·t³ + a1·t² + a2·t + a3` of its five arguments with
`a0 = p3 − p2 − p0 + p1`, `a1 = p0 − p1 − a0`, `a2 = p2 − p0`, `a3 = p1`,
and in particular `cubic_interpolate 0 1 1 0 0.5 = 1.25`. -/
theorem cubic_interpolate_formula_and_value :
    (∀ p0 p1 p2 p3 t : ℝ, cubic_interpolate p0 p1 p2 p3 t =
      (p3 - p2 - p0 + p1) * t ^ 3 +
        (p0 - p1 - (p3 - p2 - p0 + p1)) * t ^ 2 + (p2 - p0) * t + p1) ∧
    cubic_interpolate 0 1 1 0 0.5 = 1.25 := by
  constructor
  · intro p0 p1 p2 p3 t
    unfold cubic_interpolate
    ring
  · norm_num [cubic_interpolate]

/-- C8 (confirmed): for every input window strictly shorter than the FFT
size, whatever its content, the spectrum function returns the all-zero
vector of length `fft_size / 2`. -/
theorem fft_short_window_zero_spectrum (input : List ℝ) (sr : ℝ) (fftSize : ℕ)
    (h : input.length < fftSize) :
    perform_fft_visualization input sr fftSize = List.replicate (fftSize / 2) 0 := by
  unfold perform_fft_visualization
  rw [if_pos h]

/-- Witness for C8 at a concrete short window. -/
theorem fft_short_window_zero_spectrum_witness :
    ([(1 : ℝ), 2, 3].length < 8) ∧
    perform_fft_visualization [(1 : ℝ), 2, 3] 44100 8 = List.replicate 4 0 :=
  ⟨by norm_num, fft_short_window_zero_spectrum [(1 : ℝ), 2, 3] 44100 8 (by norm_num)⟩

/-- C3 (confirmed): trimming after a capture block keeps exactly the last
`C` elements in their original order — in particular, when more than `C`
samples were appended during the block the survivors all come from the
appended suffix — and the trimmed length never exceeds `C`. -/
theorem ring_trim_keeps_last_capacity :
    (∀ (C : ℕ) (prior appended : List ℝ), appended.length > C →
      trimRing C (prior ++ appended) = appended.drop (appended.length - C)) ∧
    (∀ (C : ℕ) (l : List ℝ), (trimRing C l).length ≤ C) := by
  constructor
  · intro C prior appended h
    unfold trimRing
    rw [if_pos (by simp only [List.length_append]; omega)]
    have heq : (prior ++ appended).length - C = prior.length + (appended.length - C) := by
      simp only [List.length_append]
      omega
    rw [heq, List.drop_append]
  · intro C l
    unfold trimRing
    split
    · simp only [List.length_drop]
      omega
    · omega

/-- Witness for C3: capacity 2, prior ring `[1, 2]`, appended `[3, 4, 5]`. -/
theorem ring_trim_keeps_last_capacity_witness :
    ([(3 : ℝ), 4, 5].length > 2) ∧
    trimRing 2 ([(1 : ℝ), 2] ++ [3, 4, 5]) = [(3 : ℝ), 4, 5].drop ([(3 : ℝ), 4, 5].length - 2) :=
  ⟨by norm_num, ring_trim_keeps_last_capacity.1 2 [(1 : ℝ), 2] [3, 4, 5] (by norm_num)⟩

/-- C4 (confirmed): on underrun (ring shorter than the requested frame
count) the playback stage emits an all-zero block of the requested length
and leaves the ring unchanged; otherwise it copies the front `frameCount`
samples scaled by 0.9 and removes them from the front. -/
theorem playback_underrun_silence_and_copy :
    (∀ (ring : List ℝ) (n : ℕ), ring.length < n →
      playbackStep ring n = (List.replicate n 0, ring)) ∧
    (∀ (ring : List ℝ) (n : ℕ), n ≤ ring.length →
      playbackStep ring n = ((ring.take n).map (fun x => x * 0.9), ring.drop n)) := by
  constructor
  · intro ring n h
    unfold playbackStep
    rw [if_neg (by omega)]
  · intro ring n h
    unfold playbackStep
    rw [if_pos (by omega)]

/-- Witness for C4: both the underrun arm (ring `[1]`, request 2) and the
copy arm (ring `[1, 2, 3]`, request 2). -/
theorem playback_underrun_silence_and_copy_witness :
    (([(1 : ℝ)].length < 2) ∧ playbackStep [(1 : ℝ)] 2 = (List.replicate 2 0, [(1 : ℝ)])) ∧
    ((2 ≤ [(1 : ℝ), 2, 3].length) ∧
      playbackStep [(1 : ℝ), 2, 3] 2 =
        (([(1 : ℝ), 2, 3].take 2).map (fun x => x * 0.9), [(1 : ℝ), 2, 3].drop 2)) :=
  ⟨⟨by norm_num, playback_underrun_silence_and_copy.1 [(1 : ℝ)] 2 (by norm_num)⟩,
   ⟨by norm_num, playback_underrun_silence_and_copy.2 [(1 : ℝ), 2, 3] 2 (by norm_num)⟩⟩

/-- C9 counterexample: the parsable but out-of-range entry 5 is stored
verbatim by the code, while the claim's reading would replace it with the
default 0.9. -/
theorem volume_out_of_range_kept_cex :
    setVolume (some 5) = 5 ∧ setVolumeClaimed (some 5) = 0.9 ∧ (5 : ℝ) ≠ 0.9 := by
  refine ⟨rfl, ?_, by norm_num⟩
  show (if (0 : ℝ) ≤ 5 ∧ (5 : ℝ) ≤ 1 then (5 : ℝ) else 0.9) = 0.9
  rw [if_neg]
  rintro ⟨-, h⟩
  norm_num at h

/-- C9 (corrected): an unparsable entry falls back to the documented
default 0.9, but any successfully parsed number — in range or not — is
stored unchanged. -/
theorem volume_parse_fallback :
    setVolume none = 0.9 ∧ ∀ v : ℝ, setVolume (some v) = v :=
  ⟨rfl, fun _ => rfl⟩

/-- One advance call keeps the phase inside `[0, 2π)` provided the phase was
there and the frequency gives an increment in `[0, 2π)`. -/
lemma advancePhase_mem {ph f : ℝ} (hph : ph ∈ Set.Ico 0 (2 * Real.pi))
    (hf0 : 0 ≤ f) (hf1 : f < sampleRate) :
    advancePhase ph f ∈ Set.Ico 0 (2 * Real.pi) := by
  obtain ⟨h0, h1⟩ := hph
  have hpi := Real.pi_pos
  have hsr : (0 : ℝ) < sampleRate := by norm_num [sampleRate]
  have hinc0 : 0 ≤ 2 * Real.pi * f / sampleRate := by positivity
  have hinc1 : 2 * Real.pi * f / sampleRate < 2 * Real.pi := by
    rw [div_lt_iff hsr]
    nlinarith
  unfold advancePhase
  by_cases hge : ph + 2 * Real.pi * f / sampleRate ≥ 2 * Real.pi
  · rw [if_pos hge]
    constructor
    · linarith
    · linarith
  · rw [if_neg hge]
    constructor
    · linarith
    · linarith

/-- Folding advance calls from any phase in `[0, 2π)` stays in `[0, 2π)`
when every frequency lies in `[0, sampleRate)`. -/
lemma foldl_advancePhase_mem :
    ∀ (fs : List ℝ), (∀ f ∈ fs, 0 ≤ f ∧ f < sampleRate) →
      ∀ ph ∈ Set.Ico 0 (2 * Real.pi), fs.foldl advancePhase ph ∈ Set.Ico 0 (2 * Real.pi) := by
  intro fs
  induction fs with
  | nil => intro _ ph hph; exact hph
  | cons f fs ih =>
    intro h ph hph
    have hf := h f (List.mem_cons_self f fs)
    exact ih (fun g hg => h g (List.mem_cons_of_mem f hg))
      (advancePhase ph f) (advancePhase_mem hph hf.1 hf.2)

/-- C2 counterexample: a single advance call from phase 0 with the
control-surface frequency -5 Hz leaves the accumulator negative, outside
`[0, 2π)`. -/
theorem phase_negative_freq_cex : advancePhase 0 (-5) < 0 := by
  have hpi := Real.pi_pos
  unfold advancePhase
  rw [if_neg]
  · simp only [sampleRate]
    nlinarith
  · simp only [sampleRate]
    push_neg
    nlinarith

/-- C2 (corrected): provided every advance call's frequency lies in
`[0, sampleRate)` — so that the increment `2π·f/sampleRate` lies in
`[0, 2π)` — the accumulator started at 0 is in `[0, 2π)` after every call. -/
theorem phase_in_Ico_of_nonneg_increments (fs : List ℝ)
    (h : ∀ f ∈ fs, 0 ≤ f ∧ f < sampleRate) :
    ∀ n : ℕ, phaseRun (fs.take n) ∈ Set.Ico 0 (2 * Real.pi) := by
  intro n
  have hpi := Real.pi_pos
  exact foldl_advancePhase_mem (fs.take n)
    (fun f hf => h f (List.take_subset n fs hf)) 0 ⟨le_refl 0, by linarith⟩

/-- Witness for C2 on the frequency list `[5]`. -/
theorem phase_in_Ico_of_nonneg_increments_witness :
    (∀ f ∈ [(5 : ℝ)], 0 ≤ f ∧ f < sampleRate) ∧
    phaseRun ([(5 : ℝ)].take 1) ∈ Set.Ico 0 (2 * Real.pi) := by
  have h : ∀ f ∈ [(5 : ℝ)], 0 ≤ f ∧ f < sampleRate := by
    intro f hf
    simp only [List.mem_singleton] at hf
    subst hf
    norm_num [sampleRate]
  exact ⟨h, phase_in_Ico_of_nonneg_increments [(5 : ℝ)] h 1⟩

/-- C10 (confirmed): the interpolation step runs only when the ring length
is strictly greater than 2 (a short ring is pushed without interpolation),
its two ring reads are then in bounds, and therefore neither a single
capture step nor a whole capture block ever fails on ring indexing. -/
theorem capture_ring_indexing_safe :
    (∀ (ring : List ℝ) (x : ℝ), (ring ++ [x]).length ≤ 2 →
      ringPush ring x = some (ring ++ [x], false)) ∧
    (∀ (ring : List ℝ) (x : ℝ), (ringPush ring x).isSome) ∧
    (∀ (p : Params) (s : CaptureState) (inputs : List ℝ),
      (captureBlock p s inputs).isSome) := by
  refine ⟨?_, ringPush_isSome, ?_⟩
  · intro ring x h
    unfold ringPush
    rw [if_neg]
    rintro ⟨-, h2⟩
    omega
  · intro p s inputs
    unfold captureBlock
    rcases hl : captureLoop p s inputs with - | s1
    · have := captureLoop_isSome p inputs s
      rw [hl] at this
      simp at this
    · rfl

/-- Witness for C10's guarded arm: pushing onto the empty ring. -/
theorem capture_ring_indexing_safe_witness :
    ((([] : List ℝ) ++ [(1 : ℝ)]).length ≤ 2) ∧
    ringPush ([] : List ℝ) 1 = some (([] : List ℝ) ++ [(1 : ℝ)], false) :=
  ⟨by norm_num, capture_ring_indexing_safe.1 ([] : List ℝ) 1 (by norm_num)⟩

/-- C5 counterexample: a run of two capture blocks of 200 and 241 silent
samples with ring capacity 10 reaches 441 total appended samples while the
ghost log of interpolation events stays empty — the 441st total appended
sample produced no interpolated sample, because the code's cadence counts
the current ring length, which trimming has reset. -/
theorem interp_cadence_not_total_appended_cex :
    demoRun.map CaptureState.totalAppended = some 441 ∧
    demoRun.map CaptureState.interpTotals = some [] := by
  have hinit : initState.ring.length = 0 := rfl
  have htot0 : initState.totalAppended = 0 := rfl
  have hint0 : initState.interpTotals = [] := rfl
  obtain ⟨s1, hb1, hlen1, htot1, hint1⟩ :=
    captureBlock_no_interp demoParams (List.replicate 200 0) initState (by
      intro j h1 h2
      rw [hinit] at h1
      rw [hinit, List.length_replicate] at h2
      omega)
  have hcap : demoParams.bufferSizeLimit = 10 := rfl
  rw [hinit, List.length_replicate, hcap] at hlen1
  rw [htot0, List.length_replicate] at htot1
  rw [hint0] at hint1
  obtain ⟨s2, hb2, hlen2, htot2, hint2⟩ :=
    captureBlock_no_interp demoParams (List.replicate 241 0) s1 (by
      intro j h1 h2
      rw [hlen1] at h1
      rw [hlen1, List.length_replicate] at h2
      norm_num at h1 h2
      omega)
  rw [htot1, List.length_replicate] at htot2
  rw [hint1] at hint2
  unfold demoRun
  rw [hb1, Option.some_bind, hb2]
  rw [Option.map_some', Option.map_some', htot2, hint2]
  norm_num

/-- C5 (corrected): the interpolation cadence is a condition on the current
ring length, not on the count of samples ever appended: a push lands an
extra interpolated sample exactly when the post-push ring length is a
multiple of 441 (and exceeds 2), the synthesized value being the cubic
blend at t = 0.5 of the two most recently appended ring values with the
current processed sample duplicated as the last two points. -/
theorem interp_cadence_is_ring_length :
    (∀ (l : List ℝ) (p0 x : ℝ), (l.length + 2) % 441 = 0 →
      ringPush (l ++ [p0]) x =
        some ((l ++ [p0]) ++ [x] ++ [cubic_interpolate p0 x x x 0.5], true)) ∧
    (∀ (ring : List ℝ) (x : ℝ), (ring.length + 1) % 441 ≠ 0 →
      ringPush ring x = some (ring ++ [x], false)) := by
  refine ⟨?_, ringPush_no_interp⟩
  intro l p0 x h
  have hlen : ((l ++ [p0]) ++ [x]).length = l.length + 2 := by
    simp only [List.length_append, List.length_singleton]
  have hge : l.length + 2 ≥ 441 := by omega
  have hcond : ((l ++ [p0]) ++ [x]).length % 441 = 0 ∧ ((l ++ [p0]) ++ [x]).length > 2 := by
    rw [hlen]
    exact ⟨h, by omega⟩
  have hi2 : ((l ++ [p0]) ++ [x]).length - 2 = l.length := by omega
  have hi1 : ((l ++ [p0]) ++ [x]).length - 1 = (l ++ [p0]).length := by
    simp only [List.length_append, List.length_singleton]
    omega
  have h0 : ((l ++ [p0]) ++ [x]).get? (((l ++ [p0]) ++ [x]).length - 2) = some p0 := by
    rw [hi2, List.get?_append (by simp only [List.length_append, List.length_singleton]; omega)]
    exact List.get?_concat_length l p0
  have h1 : ((l ++ [p0]) ++ [x]).get? (((l ++ [p0]) ++ [x]).length - 1) = some x := by
    rw [hi1]
    exact List.get?_concat_length (l ++ [p0]) x
  unfold ringPush
  rw [if_pos hcond, h0, h1]

/-- Witness for C5's amended cadence at ring length 441. -/
theorem interp_cadence_is_ring_length_witness :
    (((List.replicate 439 (0 : ℝ)).length + 2) % 441 = 0) ∧
    ringPush (List.replicate 439 (0 : ℝ) ++ [0]) 1 =
      some ((List.replicate 439 (0 : ℝ) ++ [0]) ++ [1] ++ [cubic_interpolate 0 1 1 1 0.5], true) :=
  ⟨by norm_num, interp_cadence_is_ring_length.1 (List.replicate 439 (0 : ℝ)) 0 1 (by norm_num)⟩

/-- C6 (confirmed): the gate multiplier is exactly 1 whenever the envelope
exceeds the threshold, and at envelope 0.005 with threshold 0.01 it equals
`0.5^1.5 · (0.15 + 0.85·0.5)`, which is within 0.0001 of 0.2033. -/
theorem gate_multiplier_passthrough_and_example :
    (∀ envelope threshold : ℝ, envelope > threshold →
      gateMultiplier envelope threshold = 1) ∧
    |gateMultiplier 0.005 0.01 - 0.2033| < 0.0001 := by
  constructor
  · intro envelope threshold h
    unfold gateMultiplier
    rw [if_pos h]
  · have hs2 : Real.sqrt 2 ^ 2 = 2 := Real.sq_sqrt (by norm_num)
    have hs0 : 0 ≤ Real.sqrt 2 := Real.sqrt_nonneg 2
    have hlb : 1.41421 < Real.sqrt 2 := by nlinarith
    have hub : Real.sqrt 2 < 1.41422 := by nlinarith
    have hratio : (0.005 : ℝ) / 0.01 = 1 / 2 := by norm_num
    have hexp : (1.5 : ℝ) = 3 / 2 := by norm_num
    have hrpow : ((1 : ℝ) / 2) ^ ((3 : ℝ) / 2) = (2 * Real.sqrt 2)⁻¹ := by
      rw [one_div, Real.inv_rpow (by norm_num)]
      congr 1
      rw [show ((3 : ℝ) / 2) = 1 + 1 / 2 by norm_num,
        Real.rpow_add (by norm_num) 1 (1 / 2), Real.rpow_one, ← Real.sqrt_eq_rpow]
    have hval : gateMultiplier 0.005 0.01 = (2 * Real.sqrt 2)⁻¹ * 0.575 := by
      unfold gateMultiplier
      rw [if_neg (by norm_num)]
      simp only [hratio, hexp, hrpow]
      norm_num
    rw [hval, abs_lt]
    have hpos : (0 : ℝ) < 2 * Real.sqrt 2 := by nlinarith
    have hinv : (2 * Real.sqrt 2)⁻¹ * (2 * Real.sqrt 2) = 1 := inv_mul_cancel₀ (ne_of_gt hpos)
    have hupos : 0 < (2 * Real.sqrt 2)⁻¹ := inv_pos.mpr hpos
    constructor
    · nlinarith
    · nlinarith

/-- Witness for C6's passthrough arm at envelope 0.02, threshold 0.01. -/
theorem gate_multiplier_passthrough_and_example_witness :
    ((0.02 : ℝ) > 0.01) ∧ gateMultiplier 0.02 0.01 = 1 :=
  ⟨by norm_num, gate_multiplier_passthrough_and_example.1 0.02 0.01 (by norm_num)⟩

/-- C1 counterexample: with the release time set to -0.1 through the control
surface (a time constant ≤ 0), a falling sample leaves the envelope at
`exp(1/4410) · 0.7`, which is nonzero — the code does not treat a
non-positive time constant as an immediate, un-smoothed envelope (the
target here is 0). -/
theorem envelope_guard_missing_cex :
    envelopeUpdate cexParams 1 0 = Real.exp (1 / 4410) * 0.7 ∧
    Real.exp (1 / 4410) * 0.7 ≠ 0 := by
  constructor
  · have h1 : ¬((0 : ℝ) > 0.01) := by norm_num
    have h2 : ¬((0 : ℝ) > 1) := by norm_num
    simp only [envelopeUpdate, envAlphaBlend, envAlpha, cexParams, sampleRate, abs_zero,
      if_neg h1, if_neg h2]
    norm_num
  · exact mul_ne_zero (Real.exp_ne_zero _) (by norm_num)

/-- C1 (corrected): the code computes
`alpha = exp(-1 / (sampleRate · timeConstant))` unconditionally; when the
selected time constant is positive the divisor is nonzero and alpha is a
genuine smoothing coefficient in `(0, 1)` — no guard exists for a
non-positive time constant. -/
theorem envAlpha_of_pos_time_constant (tc : ℝ) (h : 0 < tc) :
    sampleRate * tc ≠ 0 ∧ 0 < envAlpha tc ∧ envAlpha tc < 1 := by
  have hsr : (0 : ℝ) < sampleRate := by norm_num [sampleRate]
  have hprod : 0 < sampleRate * tc := mul_pos hsr h
  refine ⟨ne_of_gt hprod, Real.exp_pos _, ?_⟩
  unfold envAlpha
  have hneg : -1 / (sampleRate * tc) < 0 :=
    div_neg_of_neg_of_pos (by norm_num) hprod
  calc Real.exp (-1 / (sampleRate * tc)) < Real.exp 0 := Real.exp_lt_exp.mpr hneg
    _ = 1 := Real.exp_zero

/-- Witness for C1's amended statement at the default attack time 0.01. -/
theorem envAlpha_of_pos_time_constant_witness :
    ((0 : ℝ) < 0.01) ∧
    (sampleRate * 0.01 ≠ 0 ∧ 0 < envAlpha 0.01 ∧ envAlpha 0.01 < 1) :=
  ⟨by norm_num, envAlpha_of_pos_time_constant 0.01 (by norm_num)⟩

end VoiceTransformer
